import Mathlib

/-!
Shallow embedding of src/blocked-matrix-multiplication.cpp.

Matrices are total maps from a pair of indices to a rational number; the
strategies read and write only indices below N, so the dimension is carried
explicitly, as in the source.  Rationals stand in for IEEE doubles: every
strategy performs the same multiply-accumulate operations per output cell in
the same order, so the algebraic statements transfer.

The OpenMP parallel-for regions are modelled by an explicit iteration order
(a schedule) for the loop the directive distributes: in the blocked strategy
that is the loop over the block-column index q, in the standard strategy the
loop over the row index i.  Distinct iterations of those loops write disjoint
cells (proved below), so executing them in any order yields the value of some
serialization of the region; the theorems quantify over every schedule that is
a permutation of the original iteration space, and over the thread count,
which the source passes to num_threads and which never enters the arithmetic.

Wall-clock elapsed times are an oracle parameter (a map from run index to
time), because omp_get_wtime is environment input.
-/

namespace BlockedMatMul

/-- a square grid of double values, as a total map on indices
(vector of vector of double in the source). -/
def Mat : Type := Nat → Nat → ℚ

/-- write value v into cell (x, y) of grid c. -/
def mset (c : Mat) (x y : Nat) (v : ℚ) : Mat :=
  fun x' y' => if x' = x ∧ y' = y then v else c x' y'

/-- one iteration of the innermost loop body
c[i][j] = c[i][j] + a[i][k] * b[k][j]. -/
def kStep (a b : Mat) (i j : Nat) (c : Mat) (k : Nat) : Mat :=
  mset c i j (c i j + a i k * b k j)

/-- the innermost loop of every strategy: for k in ks,
c[i][j] = c[i][j] + a[i][k] * b[k][j]. -/
def kLoop (a b : Mat) (i j : Nat) (ks : List Nat) (c : Mat) : Mat :=
  ks.foldl (kStep a b i j) c

/-- the total contribution the k loop over ks adds to cell (i, j). -/
def kSum (a b : Mat) (i j : Nat) (ks : List Nat) : ℚ :=
  (ks.map (fun k => a i k * b k j)).sum

/-- the middle loop: for j in js, run the k loop at row i, column j. -/
def jLoop (a b : Mat) (i : Nat) (js ks : List Nat) (c : Mat) : Mat :=
  js.foldl (fun c j => kLoop a b i j ks c) c

/-- the triple loop nest shared by all strategies: for i in is, for j in js,
for k in ks, c[i][j] = c[i][j] + a[i][k] * b[k][j]. -/
def iLoop (a b : Mat) (is js ks : List Nat) (c : Mat) : Mat :=
  is.foldl (fun c i => jLoop a b i js ks c) c

/-- the index range of block x: x*NEIB, ..., x*NEIB + NEIB - 1
(the loop bounds p*NEIB to p*NEIB + NEIB in the source). -/
def blockRange (x NEIB : Nat) : List Nat :=
  (List.range NEIB).map (fun t => x * NEIB + t)

/-- the body of one parallel-for iteration of blockedMatrixMultiplication at
outer block-row p and block-column q: for r in 0..NB-1, the triple loop over
the (p, q, r) block of rows, columns and contraction indices. -/
def qBody (a b : Mat) (NB NEIB p : Nat) (c : Mat) (q : Nat) : Mat :=
  (List.range NB).foldl
    (fun c r => iLoop a b (blockRange p NEIB) (blockRange q NEIB) (blockRange r NEIB) c) c

/-- lines 189-208 of the source: NB = N / NEIB, sequential loop over p, and a
parallel for over q whose execution order is the schedule sched p; each q
iteration runs its r, i, j, k loops itself.  nThreads only feeds num_threads
in the source and never enters the computation. -/
def blockedMatrixMultiplication (a b : Mat) (N NEIB : Nat)
    (sched : Nat → List Nat) (nThreads : Int) (c : Mat) : Mat :=
  (List.range (N / NEIB)).foldl
    (fun c p => (sched p).foldl (qBody a b (N / NEIB) NEIB p) c) c

/-- lines 210-222 of the source: parallel for over i, executed in the order
given by the schedule is, with sequential j and k loops inside.  nThreads only
feeds num_threads and never enters the computation. -/
def standardMatrixMultiplication (a b : Mat) (N : Nat)
    (is : List Nat) (nThreads : Int) (c : Mat) : Mat :=
  iLoop a b is (List.range N) (List.range N) c

/-- lines 224-236 of the source: plain triple loop over i, j, k in ascending
order, no OpenMP directives. -/
def sequentialMatrixMultiplication (a b : Mat) (N : Nat) (c : Mat) : Mat :=
  iLoop a b (List.range N) (List.range N) (List.range N) c

/-- the dense product of the spec: C[i][j] = sum over k of A[i][k]*B[k][j]. -/
def matProdSpec (a b : Mat) (N i j : Nat) : ℚ :=
  ((List.range N).map (fun k => a i k * b k j)).sum

/-! ### Reading off the loop nests

The lemmas below compute the value of each fold pointwise.  The generic
lemmas handle a fold whose iterations own pairwise disjoint sets of cells,
read only the cells they own, and leave all other cells unchanged: this is
the shape of the j loop, the i loop, the parallel q loop and the outer p
loop.  The r loop accumulates into the same cells instead and is handled
separately. -/

theorem mset_self (c : Mat) (x y : Nat) (v : ℚ) : mset c x y v x y = v := by
  simp [mset]

theorem mset_other (c : Mat) (x y : Nat) (v : ℚ) (x' y' : Nat)
    (h : ¬(x' = x ∧ y' = y)) : mset c x y v x' y' = c x' y' := by
  simp only [mset, if_neg h]

/-- cells not owned by any iteration of the fold keep their value. -/
theorem foldl_frame (body : Mat → Nat → Mat) (own : Nat → Nat → Nat → Prop)
    (H1 : ∀ t c x y, ¬ own t x y → body c t x y = c x y)
    (ts : List Nat) (c : Mat) (x y : Nat) (h : ∀ t ∈ ts, ¬ own t x y) :
    (ts.foldl body c) x y = c x y := by
  induction ts generalizing c with
  | nil => rfl
  | cons t ts ih =>
    simp only [List.foldl_cons]
    rw [ih (body c t) (fun t' ht' => h t' (List.mem_cons_of_mem _ ht')),
      H1 t c x y (h t (List.mem_cons_self _ _))]

/-- if the iterations of the fold own pairwise disjoint cells, read only the
cells they own and write only the cells they own, then a cell owned by the
iteration t of the fold ends with the value the body of t alone gives it. -/
theorem foldl_owned (body : Mat → Nat → Mat) (own : Nat → Nat → Nat → Prop)
    (H1 : ∀ t c x y, ¬ own t x y → body c t x y = c x y)
    (H2 : ∀ t c c', (∀ x y, own t x y → c x y = c' x y) →
      ∀ x y, own t x y → body c t x y = body c' t x y)
    (Hd : ∀ t t', t ≠ t' → ∀ x y, own t x y → ¬ own t' x y)
    (ts : List Nat) (hnd : ts.Nodup) (t : Nat) (ht : t ∈ ts)
    (c : Mat) (x y : Nat) (hxy : own t x y) :
    (ts.foldl body c) x y = body c t x y := by
  induction ts generalizing c with
  | nil => cases ht
  | cons t0 ts ih =>
    simp only [List.foldl_cons]
    rcases List.mem_cons.mp ht with rfl | hmem
    · have hnotin : t ∉ ts := (List.nodup_cons.mp hnd).1
      refine foldl_frame body own H1 ts (body c t) x y ?_
      intro t' ht'
      exact Hd t t' (fun he => hnotin (he ▸ ht')) x y hxy
    · have ht0 : t ≠ t0 := fun he => (List.nodup_cons.mp hnd).1 (he ▸ hmem)
      rw [ih (List.nodup_cons.mp hnd).2 hmem (body c t0)]
      exact H2 t (body c t0) c
        (fun x' y' ho => H1 t0 c x' y' (Hd t t0 ht0 x' y' ho)) x y hxy

theorem kSum_cons (a b : Mat) (i j k : Nat) (ks : List Nat) :
    kSum a b i j (k :: ks) = a i k * b k j + kSum a b i j ks := by
  simp [kSum]

theorem kSum_append (a b : Mat) (i j : Nat) (l1 l2 : List Nat) :
    kSum a b i j (l1 ++ l2) = kSum a b i j l1 + kSum a b i j l2 := by
  simp [kSum]

/-- pointwise value of the k loop: cell (i, j) gains kSum, all other cells
keep their value. -/
theorem kLoop_apply (a b : Mat) (i j : Nat) (ks : List Nat) (c : Mat)
    (x y : Nat) :
    (kLoop a b i j ks c) x y =
      if x = i ∧ y = j then c i j + kSum a b i j ks else c x y := by
  induction ks generalizing c with
  | nil =>
    by_cases h : x = i ∧ y = j
    · simp only [kLoop, List.foldl_nil, if_pos h, kSum, List.map_nil,
        List.sum_nil, add_zero]
      rw [h.1, h.2]
    · simp [kLoop, if_neg h]
  | cons k ks ih =>
    simp only [kLoop, List.foldl_cons] at ih ⊢
    rw [ih (kStep a b i j c k)]
    by_cases h : x = i ∧ y = j
    · rw [if_pos h, if_pos h, kSum_cons, kStep, mset_self, add_assoc]
    · rw [if_neg h, if_neg h, kStep, mset_other _ _ _ _ _ _ h]

/-- pointwise value of the j loop: cells (i, j) with j drawn from js gain
their kSum, all other cells keep their value. -/
theorem jLoop_apply (a b : Mat) (i : Nat) (js ks : List Nat)
    (hnd : js.Nodup) (c : Mat) (x y : Nat) :
    (jLoop a b i js ks c) x y =
      if x = i ∧ y ∈ js then c x y + kSum a b i y ks else c x y := by
  have H1 : ∀ t c x y, ¬(x = i ∧ y = t) →
      (kLoop a b i t ks c) x y = c x y := fun t c x y h => by
    rw [kLoop_apply, if_neg h]
  unfold jLoop
  by_cases h : x = i ∧ y ∈ js
  · rw [if_pos h]
    rw [foldl_owned (fun c j => kLoop a b i j ks c)
        (fun j x y => x = i ∧ y = j) H1
        (fun t c c' hag x y ho => by
          show kLoop a b i t ks c x y = kLoop a b i t ks c' x y
          have ho' : x = i ∧ y = t := ho
          rw [kLoop_apply, if_pos ho', kLoop_apply, if_pos ho',
            hag i t ⟨rfl, rfl⟩])
        (fun t t' hne x y ho hco => hne (ho.2.symm.trans hco.2))
        js hnd y h.2 c x y ⟨h.1, rfl⟩]
    show kLoop a b i y ks c x y = c x y + kSum a b i y ks
    rw [kLoop_apply, if_pos ⟨h.1, rfl⟩, h.1]
  · rw [if_neg h]
    refine foldl_frame _ (fun j x y => x = i ∧ y = j) H1 js c x y ?_
    intro t ht hco
    exact h ⟨hco.1, hco.2 ▸ ht⟩

/-- pointwise value of the full triple loop nest: cells (i, j) with i from is
and j from js gain their kSum, all other cells keep their value. -/
theorem iLoop_apply (a b : Mat) (is js ks : List Nat)
    (hi : is.Nodup) (hj : js.Nodup) (c : Mat) (x y : Nat) :
    (iLoop a b is js ks c) x y =
      if x ∈ is ∧ y ∈ js then c x y + kSum a b x y ks else c x y := by
  have H1 : ∀ t c x y, ¬(x = t ∧ y ∈ js) →
      (jLoop a b t js ks c) x y = c x y := fun t c x y h => by
    rw [jLoop_apply a b t js ks hj, if_neg h]
  unfold iLoop
  by_cases h : x ∈ is ∧ y ∈ js
  · rw [if_pos h]
    rw [foldl_owned (fun c i => jLoop a b i js ks c)
        (fun i x y => x = i ∧ y ∈ js) H1
        (fun t c c' hag x y ho => by
          show jLoop a b t js ks c x y = jLoop a b t js ks c' x y
          have ho' : x = t ∧ y ∈ js := ho
          rw [jLoop_apply a b t js ks hj, if_pos ho',
            jLoop_apply a b t js ks hj, if_pos ho', hag x y ho'])
        (fun t t' hne x y ho hco => hne (ho.1.symm.trans hco.1))
        is hi x h.1 c x y ⟨rfl, h.2⟩]
    show jLoop a b x js ks c x y = c x y + kSum a b x y ks
    rw [jLoop_apply a b x js ks hj, if_pos ⟨rfl, h.2⟩]
  · rw [if_neg h]
    refine foldl_frame _ (fun i x y => x = i ∧ y ∈ js) H1 is c x y ?_
    intro t ht hco
    exact h ⟨hco.1 ▸ ht, hco.2⟩

/-- pointwise value of the r loop at fixed row list pis and column list qjs:
each owned cell accumulates the kSum of every r block in rs. -/
theorem rfold_apply (a b : Mat) (E : Nat) (pis qjs : List Nat)
    (hp : pis.Nodup) (hq : qjs.Nodup) (rs : List Nat) (c : Mat) (x y : Nat) :
    (rs.foldl (fun c r => iLoop a b pis qjs (blockRange r E) c) c) x y =
      if x ∈ pis ∧ y ∈ qjs then
        c x y + (rs.map (fun r => kSum a b x y (blockRange r E))).sum
      else c x y := by
  induction rs generalizing c with
  | nil =>
    by_cases h : x ∈ pis ∧ y ∈ qjs
    · simp [if_pos h]
    · simp [if_neg h]
  | cons r rs ih =>
    simp only [List.foldl_cons]
    rw [ih (iLoop a b pis qjs (blockRange r E) c)]
    by_cases h : x ∈ pis ∧ y ∈ qjs
    · rw [if_pos h, if_pos h, iLoop_apply a b pis qjs _ hp hq, if_pos h,
        List.map_cons, List.sum_cons, add_assoc]
    · rw [if_neg h, if_neg h, iLoop_apply a b pis qjs _ hp hq, if_neg h]

theorem mem_blockRange {j x E : Nat} :
    j ∈ blockRange x E ↔ x * E ≤ j ∧ j < x * E + E := by
  simp only [blockRange, List.mem_map, List.mem_range]
  constructor
  · rintro ⟨t, ht, rfl⟩
    omega
  · rintro ⟨h1, h2⟩
    exact ⟨j - x * E, by omega, by omega⟩

theorem blockRange_nodup (x E : Nat) : (blockRange x E).Nodup :=
  (List.nodup_range E).map (add_right_injective (x * E))

theorem blockRange_disjoint {q q' E : Nat} (h : q ≠ q') {j : Nat}
    (hj : j ∈ blockRange q E) : j ∉ blockRange q' E := by
  rw [mem_blockRange] at hj
  rw [mem_blockRange]
  rcases Nat.lt_or_ge q q' with hlt | hge
  · have hle : (q + 1) * E ≤ q' * E :=
      Nat.mul_le_mul_right E (Nat.succ_le_of_lt hlt)
    have : q * E + E ≤ q' * E := by rw [← Nat.succ_mul]; exact hle
    omega
  · have hlt' : q' < q := Nat.lt_of_le_of_ne hge (Ne.symm h).symm.symm
    have hle : (q' + 1) * E ≤ q * E :=
      Nat.mul_le_mul_right E (Nat.succ_le_of_lt hlt')
    have : q' * E + E ≤ q * E := by rw [← Nat.succ_mul]; exact hle
    omega

theorem mem_blockRange_div {j E : Nat} (hE : 0 < E) :
    j ∈ blockRange (j / E) E := by
  rw [mem_blockRange]
  have h1 : E * (j / E) + j % E = j := Nat.div_add_mod j E
  have h2 : j % E < E := Nat.mod_lt _ hE
  rw [Nat.mul_comm] at h1
  omega

theorem range_eq_append (m n : Nat) :
    List.range (m + n) = List.range m ++ (List.range n).map (fun t => m + t) := by
  induction n with
  | zero => simp
  | succ n ih =>
    rw [Nat.add_succ, List.range_succ, ih, List.range_succ, List.map_append,
      List.append_assoc]
    simp

/-- the contributions of the NB contraction blocks add up to the contribution
of the full contraction range 0..NB*E-1. -/
theorem kSum_blocks (a b : Mat) (x y E : Nat) (NB : Nat) :
    ((List.range NB).map (fun r => kSum a b x y (blockRange r E))).sum =
      kSum a b x y (List.range (NB * E)) := by
  induction NB with
  | zero => simp [kSum]
  | succ n ih =>
    rw [List.range_succ, List.map_append, List.sum_append, ih, Nat.succ_mul,
      range_eq_append, kSum_append]
    simp [blockRange, kSum]

/-- pointwise value of one parallel-for iteration of the blocked strategy:
only cells in block-row p and block-column q change, and each gains the full
contraction sum over k = 0..NB*E-1. -/
theorem qBody_apply (a b : Mat) (NB E p : Nat) (c : Mat) (q : Nat)
    (x y : Nat) :
    qBody a b NB E p c q x y =
      if x ∈ blockRange p E ∧ y ∈ blockRange q E then
        c x y + kSum a b x y (List.range (NB * E))
      else c x y := by
  rw [qBody, rfold_apply a b E _ _ (blockRange_nodup p E) (blockRange_nodup q E),
    kSum_blocks]

/-- pointwise value of the parallel-for region over q at fixed block-row p,
executed in any duplicate-free order qs covering exactly q = 0..NB-1: cells in
block-row p with column below NB*E gain the full contraction sum, all other
cells keep their value. -/
theorem qfold_apply (a b : Mat) (NB E p : Nat) (hE : 0 < E)
    (qs : List Nat) (hnd : qs.Nodup) (hmem : ∀ q, q ∈ qs ↔ q < NB)
    (c : Mat) (x y : Nat) :
    (qs.foldl (qBody a b NB E p) c) x y =
      if x ∈ blockRange p E ∧ y < NB * E then
        c x y + kSum a b x y (List.range (NB * E))
      else c x y := by
  have H1 : ∀ q c x y, ¬(x ∈ blockRange p E ∧ y ∈ blockRange q E) →
      qBody a b NB E p c q x y = c x y := fun q c x y hno => by
    rw [qBody_apply, if_neg hno]
  by_cases h : x ∈ blockRange p E ∧ y < NB * E
  · rw [if_pos h]
    have hq : y ∈ blockRange (y / E) E := mem_blockRange_div hE
    have hqlt : y / E < NB :=
      Nat.div_lt_of_lt_mul (by rw [Nat.mul_comm]; exact h.2)
    rw [foldl_owned (qBody a b NB E p)
        (fun q x y => x ∈ blockRange p E ∧ y ∈ blockRange q E) H1
        (fun q c c' hag x y ho => by
          rw [qBody_apply, if_pos ho, qBody_apply, if_pos ho, hag x y ho])
        (fun q q' hne x y ho hco =>
          blockRange_disjoint hne ho.2 hco.2)
        qs hnd (y / E) ((hmem _).mpr hqlt) c x y ⟨h.1, hq⟩]
    rw [qBody_apply, if_pos ⟨h.1, hq⟩]
  · rw [if_neg h]
    refine foldl_frame _ _ H1 qs c x y ?_
    intro q hqs hco
    refine h ⟨hco.1, ?_⟩
    have hqlt : q < NB := (hmem q).mp hqs
    have hy := mem_blockRange.mp hco.2
    have hle : (q + 1) * E ≤ NB * E :=
      Nat.mul_le_mul_right E (Nat.succ_le_of_lt hqlt)
    have : q * E + E ≤ NB * E := by rw [← Nat.succ_mul]; exact hle
    omega

/-- pointwise value of the blocked strategy: when NEIB divides N and every
parallel region executes a permutation of the q iterations 0..NB-1, every
cell (x, y) with x, y < N accumulates the dense-product term of the full
contraction range, and the thread count and schedules do not matter. -/
theorem blocked_apply (a b : Mat) (N E : Nat) (sched : Nat → List Nat)
    (nT : Int) (hE : 0 < E) (hdvd : N % E = 0)
    (hs : ∀ p, List.Perm (sched p) (List.range (N / E)))
    (c : Mat) (x y : Nat) (hx : x < N) (hy : y < N) :
    blockedMatrixMultiplication a b N E sched nT c x y =
      c x y + kSum a b x y (List.range N) := by
  have hNBE : N / E * E = N := Nat.div_mul_cancel (Nat.dvd_of_mod_eq_zero hdvd)
  have hnd : ∀ p, (sched p).Nodup :=
    fun p => ((hs p).nodup_iff).mpr (List.nodup_range _)
  have hmem : ∀ p q, q ∈ sched p ↔ q < N / E :=
    fun p q => ((hs p).mem_iff).trans List.mem_range
  have H1 : ∀ p c x y, ¬(x ∈ blockRange p E ∧ y < N / E * E) →
      ((sched p).foldl (qBody a b (N / E) E p) c) x y = c x y :=
    fun p c x y hno => by
      rw [qfold_apply a b (N / E) E p hE (sched p) (hnd p) (hmem p), if_neg hno]
  have hp : x ∈ blockRange (x / E) E := mem_blockRange_div hE
  have hplt : x / E < N / E :=
    Nat.div_lt_of_lt_mul (by rw [Nat.mul_comm, hNBE]; exact hx)
  have hy' : y < N / E * E := by rw [hNBE]; exact hy
  unfold blockedMatrixMultiplication
  rw [foldl_owned (fun c p => (sched p).foldl (qBody a b (N / E) E p) c)
      (fun p x y => x ∈ blockRange p E ∧ y < N / E * E) H1
      (fun p c c' hag x y ho => by
        show ((sched p).foldl (qBody a b (N / E) E p) c) x y =
          ((sched p).foldl (qBody a b (N / E) E p) c') x y
        have ho' : x ∈ blockRange p E ∧ y < N / E * E := ho
        rw [qfold_apply a b (N / E) E p hE (sched p) (hnd p) (hmem p),
          if_pos ho', qfold_apply a b (N / E) E p hE (sched p) (hnd p) (hmem p),
          if_pos ho', hag x y ho'])
      (fun p p' hne x y ho hco => blockRange_disjoint hne ho.1 hco.1)
      (List.range (N / E)) (List.nodup_range _) (x / E)
      (List.mem_range.mpr hplt) c x y ⟨hp, hy'⟩]
  show ((sched (x / E)).foldl (qBody a b (N / E) E (x / E)) c) x y =
    c x y + kSum a b x y (List.range N)
  rw [qfold_apply a b (N / E) E (x / E) hE _ (hnd _) (hmem _),
    if_pos ⟨hp, hy'⟩, hNBE]

/-- pointwise value of the standard (flat-parallel) strategy: with the row
loop executed in any order that is a permutation of 0..N-1, every cell (x, y)
with x, y < N accumulates the dense-product term. -/
theorem standard_apply (a b : Mat) (N : Nat) (is : List Nat) (nT : Int)
    (his : List.Perm is (List.range N)) (c : Mat) (x y : Nat)
    (hx : x < N) (hy : y < N) :
    standardMatrixMultiplication a b N is nT c x y =
      c x y + kSum a b x y (List.range N) := by
  rw [standardMatrixMultiplication,
    iLoop_apply a b is _ _ ((his.nodup_iff).mpr (List.nodup_range N))
      (List.nodup_range N),
    if_pos ⟨(his.mem_iff).mpr (List.mem_range.mpr hx), List.mem_range.mpr hy⟩]

/-- pointwise value of the sequential strategy: every cell (x, y) with
x, y < N accumulates the dense-product term. -/
theorem sequential_apply (a b : Mat) (N : Nat) (c : Mat) (x y : Nat)
    (hx : x < N) (hy : y < N) :
    sequentialMatrixMultiplication a b N c x y =
      c x y + kSum a b x y (List.range N) := by
  rw [sequentialMatrixMultiplication,
    iLoop_apply a b _ _ _ (List.nodup_range N) (List.nodup_range N),
    if_pos ⟨List.mem_range.mpr hx, List.mem_range.mpr hy⟩]

/-! ### The measurement harness and the external layer

The model below follows main (lines 31-187 of the source).  Wall-clock
elapsed times are an oracle, a map from run index to elapsed time.  Output is
a list of structured lines: the values main streams to standard output, with
the three-line table header folded into one marker and the interactive-only
matrix sample prints omitted (batch mode never reaches them).  Matrix
contents never influence the control flow or the output of main, so the runs
are recorded as events naming the strategy invoked and the thread count
passed to it. -/

/-- the Result record of the source: elapsed wall-clock time and the thread
count used. -/
structure Result where
  timestamp : ℚ
  threads : Int
deriving DecidableEq

/-- one strategy invocation performed by main, with the thread count handed
to the strategy. -/
inductive RunEvent where
  | seqRun : RunEvent
  | blockedRun : Int → RunEvent
  | standardRun : Int → RunEvent
deriving DecidableEq

/-- the thread count a run event executes with; the sequential strategy
reports 1 in the source. -/
def runEventThreads : RunEvent → Int
  | RunEvent.seqRun => 1
  | RunEvent.blockedRun t => t
  | RunEvent.standardRun t => t

/-- one line of standard output, structurally.  csv is the batch line
method,threads,elapsed_time with the time rendered to 8 decimal places;
tableRow is one row of the interactive results table; sentinelRow exists only
for the reporter modelled from the spec and is never produced by the
source. -/
inductive OutLine where
  | blank : OutLine
  | divisibilityError : OutLine
  | csv : Int → Int → ℚ → OutLine
  | resultsHeader : OutLine
  | tableRow : Int → ℚ → ℚ → ℚ → OutLine
  | sentinelRow : Int → ℚ → OutLine
deriving DecidableEq

/-- recognizes the batch CSV line. -/
def OutLine.isCsv : OutLine → Bool
  | OutLine.csv _ _ _ => true
  | _ => false

/-- recognizes the anomaly marker of the spec-modelled reporter. -/
def OutLine.isSentinel : OutLine → Bool
  | OutLine.sentinelRow _ _ => true
  | _ => false

/-- maxThreads = 16 at line 33 of the source. -/
def maxThreads : Nat := 16

/-- lines 119-155 of the source, the interactive full analysis: the
sequential method runs once and is stored under thread key 1; the parallel
methods run once per thread count 1..16 in ascending order, and the i = 0 run
is the stored baseline.  times is the elapsed-time oracle indexed by run. -/
def sweepResults (method : Int) (times : Nat → ℚ) : List (Int × Result) :=
  if method = 3 then [(1, ⟨times 0, 1⟩)]
  else (List.range maxThreads).map
    (fun (i : Nat) => ((i : Int) + 1, ⟨times i, (i : Int) + 1⟩))

/-- the speedup baseline sequentialTime recorded by the sweep: the timestamp
of the single sequential run, or of the i = 0 (one-thread) run. -/
def sweepBaseline (method : Int) (times : Nat → ℚ) : ℚ := times 0

/-- the strategy invocations the sweep performs, in order. -/
def sweepRuns (method : Int) : List RunEvent :=
  if method = 3 then [RunEvent.seqRun]
  else (List.range maxThreads).map
    (fun (i : Nat) => if method = 1 then RunEvent.blockedRun ((i : Int) + 1)
      else RunEvent.standardRun ((i : Int) + 1))

/-- lines 161-172 of the source, the metrics reporter: for every accumulated
entry it prints threads, time, speedup = sequentialTime / time and
efficiency = speedup / threads, unconditionally. -/
def reportRows (sequentialTime : ℚ) (results : List (Int × Result)) :
    List OutLine :=
  results.map (fun res =>
    OutLine.tableRow res.1 res.2.timestamp (sequentialTime / res.2.timestamp)
      (sequentialTime / res.2.timestamp / (res.1 : ℚ)))

/-- Modelled from the spec: the reporter contract of section 4.4, whose
division-by-zero guard is absent from the source.  An entry with
elapsed_time = 0 is rendered as an explicit anomaly marker instead of the
unconditional divisions. -/
def reportRowsSpec (sequentialTime : ℚ) (results : List (Int × Result)) :
    List OutLine :=
  results.map (fun res =>
    if res.2.timestamp = 0 then OutLine.sentinelRow res.1 res.2.timestamp
    else OutLine.tableRow res.1 res.2.timestamp
      (sequentialTime / res.2.timestamp)
      (sequentialTime / res.2.timestamp / (res.1 : ℚ)))

/-- the observable outcome of a batch invocation: output lines, process exit
status, and the strategy invocations performed. -/
structure BatchOutcome where
  lines : List OutLine
  exitCode : Nat
  runs : List RunEvent
deriving DecidableEq

/-- main in batch mode (argc = 5, lines 40-46 and 68-187): after the initial
endl of line 48, the divisibility check of lines 70-79 either prints the
error and returns 1, or the run proceeds; with a positive thread count,
lines 99-118 perform exactly one run of the selected strategy and print one
CSV line, returning 0; otherwise the interactive-style full analysis of
lines 119-172 runs the sweep, prints the results table and falls through to
return 0 at line 186. -/
def mainBatch (N NEIB : Nat) (method threads : Int) (times : Nat → ℚ) :
    BatchOutcome :=
  if method = 1 ∧ N % NEIB ≠ 0 then
    ⟨[OutLine.blank, OutLine.divisibilityError], 1, []⟩
  else if threads > 0 then
    ⟨[OutLine.blank, OutLine.csv method threads (times 0)], 0,
      [if method = 3 then RunEvent.seqRun
       else if method = 1 then RunEvent.blockedRun threads
       else RunEvent.standardRun threads]⟩
  else
    ⟨[OutLine.blank, OutLine.resultsHeader] ++
      reportRows (sweepBaseline method times) (sweepResults method times),
      0, sweepRuns method⟩

/-- lines 52-64 of the source, the interactive input loop: reads a triple
(N, NEIB, method); when method is 1 and NEIB does not divide N it prints the
divisibility error and continues; otherwise the body simply ends, and since
the loop is while (true) with no break or return, control also continues to
the next prompt.  The function returns the triple with which the loop exits,
or none when the loop is still running after consuming the given inputs. -/
def promptLoop : List (Nat × Nat × Int) → Option (Nat × Nat × Int)
  | [] => none
  | (N, NEIB, m) :: rest =>
    if m = 1 ∧ N % NEIB ≠ 0 then promptLoop rest
    else promptLoop rest

/-- the three matrices of one experiment, as main owns them (lines 82-84). -/
structure MMState where
  a : Mat
  b : Mat
  c : Mat

/-- the blocked strategy acting on the full experiment state: the source
writes only into c (line 204). -/
def blockedOnState (N NEIB : Nat) (sched : Nat → List Nat) (nThreads : Int)
    (s : MMState) : MMState :=
  ⟨s.a, s.b, blockedMatrixMultiplication s.a s.b N NEIB sched nThreads s.c⟩

/-- the standard strategy acting on the full experiment state: the source
writes only into c (line 219). -/
def standardOnState (N : Nat) (is : List Nat) (nThreads : Int)
    (s : MMState) : MMState :=
  ⟨s.a, s.b, standardMatrixMultiplication s.a s.b N is nThreads s.c⟩

/-- the sequential strategy acting on the full experiment state: the source
writes only into c (line 233). -/
def sequentialOnState (N : Nat) (s : MMState) : MMState :=
  ⟨s.a, s.b, sequentialMatrixMultiplication s.a s.b N s.c⟩

/-! ### Claims -/

/-- C1: for every N > 0, every pair of N-by-N input matrices, every block
size NEIB with N % NEIB = 0, and every thread count and parallel execution
order, the blocked, flat-parallel (standard) and sequential strategies, each
applied to a pre-zeroed output matrix, produce the same output grid, equal to
the dense product C[i][j] = sum over k of A[i][k]*B[k][j]. -/
theorem C1_strategies_agree_with_dense_product (N NEIB : Nat) (a b : Mat)
    (sched : Nat → List Nat) (is : List Nat) (nT1 nT2 : Int)
    (hN : 0 < N) (hdvd : N % NEIB = 0)
    (hsched : ∀ p, List.Perm (sched p) (List.range (N / NEIB)))
    (his : List.Perm is (List.range N))
    (i j : Nat) (hi : i < N) (hj : j < N) :
    blockedMatrixMultiplication a b N NEIB sched nT1 (fun _ _ => 0) i j =
      matProdSpec a b N i j ∧
    standardMatrixMultiplication a b N is nT2 (fun _ _ => 0) i j =
      matProdSpec a b N i j ∧
    sequentialMatrixMultiplication a b N (fun _ _ => 0) i j =
      matProdSpec a b N i j := by
  have hE : 0 < NEIB := by
    rcases Nat.eq_zero_or_pos NEIB with h0 | hpos
    · subst h0
      rw [Nat.mod_zero] at hdvd
      omega
    · exact hpos
  refine ⟨?_, ?_, ?_⟩
  · rw [blocked_apply a b N NEIB sched nT1 hE hdvd hsched _ i j hi hj]
    exact zero_add _
  · rw [standard_apply a b N is nT2 his _ i j hi hj]
    exact zero_add _
  · rw [sequential_apply a b N _ i j hi hj]
    exact zero_add _

/-- witness for C1 at N = 2, NEIB = 1, constant matrices, a reversed
schedule for every parallel region and thread counts 5 and 7. -/
theorem C1_strategies_agree_with_dense_product_witness :
    (0 < 2 ∧ 2 % 1 = 0 ∧
      (∀ _p : Nat, List.Perm [1, 0] (List.range (2 / 1))) ∧
      List.Perm [1, 0] (List.range 2) ∧ 0 < 2 ∧ 1 < 2) ∧
    (blockedMatrixMultiplication (fun _ _ => 2) (fun _ _ => 3) 2 1
        (fun _ => [1, 0]) 5 (fun _ _ => 0) 0 1 =
      matProdSpec (fun _ _ => 2) (fun _ _ => 3) 2 0 1 ∧
    standardMatrixMultiplication (fun _ _ => 2) (fun _ _ => 3) 2 [1, 0] 7
        (fun _ _ => 0) 0 1 =
      matProdSpec (fun _ _ => 2) (fun _ _ => 3) 2 0 1 ∧
    sequentialMatrixMultiplication (fun _ _ => 2) (fun _ _ => 3) 2
        (fun _ _ => 0) 0 1 =
      matProdSpec (fun _ _ => 2) (fun _ _ => 3) 2 0 1) := by
  have hperm : List.Perm [1, 0] (List.range (2 / 1)) := by decide
  have hperm2 : List.Perm [1, 0] (List.range 2) := by decide
  exact ⟨⟨by decide, by decide, fun _ => hperm, hperm2, by decide, by decide⟩,
    C1_strategies_agree_with_dense_product 2 1 (fun _ _ => 2) (fun _ _ => 3)
      (fun _ => [1, 0]) [1, 0] 5 7 (by decide) (by decide)
      (fun _ => hperm) hperm2 0 1 (by decide) (by decide)⟩

/-- C10: all three strategies accumulate into the output matrix rather than
assign: starting from an arbitrary output matrix c0, the final cell (i, j)
holds c0[i][j] plus the dense-product term, so the pre-zeroed precondition is
essential for the result to equal the product. -/
theorem C10_strategies_accumulate_into_output (N NEIB : Nat) (a b c0 : Mat)
    (sched : Nat → List Nat) (is : List Nat) (nT1 nT2 : Int)
    (hdvd : N % NEIB = 0)
    (hsched : ∀ p, List.Perm (sched p) (List.range (N / NEIB)))
    (his : List.Perm is (List.range N))
    (i j : Nat) (hi : i < N) (hj : j < N) :
    sequentialMatrixMultiplication a b N c0 i j =
      c0 i j + matProdSpec a b N i j ∧
    standardMatrixMultiplication a b N is nT2 c0 i j =
      c0 i j + matProdSpec a b N i j ∧
    blockedMatrixMultiplication a b N NEIB sched nT1 c0 i j =
      c0 i j + matProdSpec a b N i j := by
  have hE : 0 < NEIB := by
    rcases Nat.eq_zero_or_pos NEIB with h0 | hpos
    · subst h0
      rw [Nat.mod_zero] at hdvd
      omega
    · exact hpos
  exact ⟨sequential_apply a b N c0 i j hi hj,
    standard_apply a b N is nT2 his c0 i j hi hj,
    blocked_apply a b N NEIB sched nT1 hE hdvd hsched c0 i j hi hj⟩

/-- witness for C10 at N = 2, NEIB = 2 (a single block), a non-zero initial
output matrix, identity schedules and thread count 3. -/
theorem C10_strategies_accumulate_into_output_witness :
    (2 % 2 = 0 ∧
      (∀ p : Nat, List.Perm ((fun (_ : Nat) => List.range (2 / 2)) p)
        (List.range (2 / 2))) ∧
      List.Perm (List.range 2) (List.range 2) ∧ 1 < 2 ∧ 0 < 2) ∧
    (sequentialMatrixMultiplication (fun _ _ => 2) (fun _ _ => 3) 2
        (fun _ _ => 7) 1 0 =
      (fun (_ _ : Nat) => (7 : ℚ)) 1 0 +
        matProdSpec (fun _ _ => 2) (fun _ _ => 3) 2 1 0 ∧
    standardMatrixMultiplication (fun _ _ => 2) (fun _ _ => 3) 2
        (List.range 2) 3 (fun _ _ => 7) 1 0 =
      (fun (_ _ : Nat) => (7 : ℚ)) 1 0 +
        matProdSpec (fun _ _ => 2) (fun _ _ => 3) 2 1 0 ∧
    blockedMatrixMultiplication (fun _ _ => 2) (fun _ _ => 3) 2 2
        (fun _ => List.range (2 / 2)) 3 (fun _ _ => 7) 1 0 =
      (fun (_ _ : Nat) => (7 : ℚ)) 1 0 +
        matProdSpec (fun _ _ => 2) (fun _ _ => 3) 2 1 0) :=
  ⟨⟨by decide, fun _ => List.Perm.refl _, List.Perm.refl _, by decide, by decide⟩,
    C10_strategies_accumulate_into_output 2 2 (fun _ _ => 2) (fun _ _ => 3)
      (fun _ _ => 7) (fun _ => List.range (2 / 2)) (List.range 2) 3 3
      (by decide) (fun _ => List.Perm.refl _) (List.Perm.refl _) 1 0
      (by decide) (by decide)⟩

/-- C7: in the blocked strategy, one parallel-for iteration (a fixed
block-column q at outer block-row p, covering all contraction blocks r)
writes only cells whose row lies in block-row p and whose column lies in
block-column q, and the column ranges of distinct q iterations are disjoint,
so no two iterations of a parallel region ever write the same cell. -/
theorem C7_blocked_parallel_write_ownership (a b : Mat) (NB E p q q' : Nat)
    (c : Mat) (x y : Nat) :
    (¬(x ∈ blockRange p E ∧ y ∈ blockRange q E) →
      qBody a b NB E p c q x y = c x y) ∧
    (q ≠ q' → y ∈ blockRange q E → y ∉ blockRange q' E) :=
  ⟨fun h => by rw [qBody_apply, if_neg h],
   fun hne hy => blockRange_disjoint hne hy⟩

/-- witness for C7 at NB = 2, E = 1, p = 0, q = 0, q' = 1: the cell (1, 0)
lies outside block-row 0 and is left unchanged, and column 0 belongs to
block-column 0 but not to block-column 1. -/
theorem C7_blocked_parallel_write_ownership_witness :
    qBody (fun _ _ => 2) (fun _ _ => 3) 2 1 0 (fun _ _ => 0) 0 1 0 =
      (fun (_ _ : Nat) => (0 : ℚ)) 1 0 ∧
    (0 : Nat) ∉ blockRange 1 1 :=
  ⟨(C7_blocked_parallel_write_ownership (fun _ _ => 2) (fun _ _ => 3) 2 1 0 0 1
      (fun _ _ => 0) 1 0).1 (by decide),
   (C7_blocked_parallel_write_ownership (fun _ _ => 2) (fun _ _ => 3) 2 1 0 0 1
      (fun _ _ => 0) 1 0).2 (by decide) (by decide)⟩

/-- C8: every strategy leaves both input matrices unchanged; the source
writes only into c, so on the full experiment state the a and b components
are preserved by all three strategies. -/
theorem C8_strategies_preserve_inputs (N NEIB : Nat) (sched : Nat → List Nat)
    (is : List Nat) (nT1 nT2 : Int) (s : MMState) :
    ((blockedOnState N NEIB sched nT1 s).a = s.a ∧
      (blockedOnState N NEIB sched nT1 s).b = s.b) ∧
    ((standardOnState N is nT2 s).a = s.a ∧
      (standardOnState N is nT2 s).b = s.b) ∧
    ((sequentialOnState N s).a = s.a ∧ (sequentialOnState N s).b = s.b) :=
  ⟨⟨rfl, rfl⟩, ⟨rfl, rfl⟩, ⟨rfl, rfl⟩⟩

/-- C5: in batch mode with a positive thread count and any method (with the
divisibility precondition when the method is blocked), exactly one
multiplication run of the selected strategy is performed with that thread
count, exactly one CSV line method,threads,elapsed_time is written, and the
process exits with status 0. -/
theorem C5_batch_single_run_single_csv_line (N NEIB : Nat)
    (method threads : Int) (times : Nat → ℚ)
    (hdvd : method = 1 → N % NEIB = 0) (hpos : threads > 0) :
    (mainBatch N NEIB method threads times).lines.filter OutLine.isCsv =
      [OutLine.csv method threads (times 0)] ∧
    (mainBatch N NEIB method threads times).exitCode = 0 ∧
    (mainBatch N NEIB method threads times).runs =
      [if method = 3 then RunEvent.seqRun
       else if method = 1 then RunEvent.blockedRun threads
       else RunEvent.standardRun threads] := by
  have hcond : ¬(method = 1 ∧ N % NEIB ≠ 0) := fun h => h.2 (hdvd h.1)
  unfold mainBatch
  rw [if_neg hcond, if_pos hpos]
  exact ⟨by simp [OutLine.isCsv], rfl, rfl⟩

/-- witness for C5 at the concrete scenario of the spec, N = 100, NEIB = 10,
method = 1, threads = 4, whose single run is the blocked strategy. -/
theorem C5_batch_single_run_single_csv_line_witness :
    (((1 : Int) = 1 → 100 % 10 = 0) ∧ (4 : Int) > 0) ∧
    ((mainBatch 100 10 1 4 (fun _ => 1)).lines.filter OutLine.isCsv =
        [OutLine.csv 1 4 (1 : ℚ)] ∧
      (mainBatch 100 10 1 4 (fun _ => 1)).exitCode = 0 ∧
      (mainBatch 100 10 1 4 (fun _ => 1)).runs = [RunEvent.blockedRun 4]) :=
  ⟨⟨fun _ => by decide, by decide⟩,
    C5_batch_single_run_single_csv_line 100 10 1 4 (fun _ => 1)
      (fun _ => by decide) (by decide)⟩

/-- C9: a batch invocation whose thread-count argument is zero or negative
never performs a normal single run with that thread count: no CSV line is
written, and every strategy invocation that does happen uses a thread count
of at least 1. -/
theorem C9_nonpositive_threads_no_single_run (N NEIB : Nat)
    (method threads : Int) (times : Nat → ℚ) (hle : threads ≤ 0) :
    (∀ l ∈ (mainBatch N NEIB method threads times).lines,
      OutLine.isCsv l = false) ∧
    (∀ r ∈ (mainBatch N NEIB method threads times).runs,
      1 ≤ runEventThreads r) := by
  have hnotpos : ¬(threads > 0) := by omega
  unfold mainBatch
  by_cases hc : method = 1 ∧ N % NEIB ≠ 0
  · rw [if_pos hc]
    refine ⟨?_, ?_⟩
    · intro l hl
      rcases List.mem_cons.mp hl with rfl | hl2
      · rfl
      rcases List.mem_cons.mp hl2 with rfl | hl3
      · rfl
      · cases hl3
    · intro r hr
      cases hr
  · rw [if_neg hc, if_neg hnotpos]
    refine ⟨?_, ?_⟩
    · intro l hl
      rcases List.mem_append.mp hl with hmem | hmem
      · rcases List.mem_cons.mp hmem with rfl | hmem2
        · rfl
        rcases List.mem_cons.mp hmem2 with rfl | hmem3
        · rfl
        · cases hmem3
      · unfold reportRows at hmem
        rcases List.mem_map.mp hmem with ⟨res, _, rfl⟩
        rfl
    · intro r hr
      unfold sweepRuns at hr
      by_cases hm : method = 3
      · rw [if_pos hm] at hr
        rcases List.mem_cons.mp hr with rfl | h
        · exact le_refl 1
        · cases h
      · rw [if_neg hm] at hr
        rcases List.mem_map.mp hr with ⟨i, _, rfl⟩
        by_cases h1 : method = 1
        · rw [if_pos h1]
          show (1 : Int) ≤ (i : Int) + 1
          omega
        · rw [if_neg h1]
          show (1 : Int) ≤ (i : Int) + 1
          omega

/-- witness for C9 at N = 4, NEIB = 2, method = 2, threads = 0. -/
theorem C9_nonpositive_threads_no_single_run_witness :
    ((0 : Int) ≤ 0) ∧
    ((∀ l ∈ (mainBatch 4 2 2 0 (fun _ => 1)).lines, OutLine.isCsv l = false) ∧
      (∀ r ∈ (mainBatch 4 2 2 0 (fun _ => 1)).runs, 1 ≤ runEventThreads r)) :=
  ⟨le_refl 0, C9_nonpositive_threads_no_single_run 4 2 2 0 (fun _ => 1) (le_refl 0)⟩

/-- C6: in every scaling table of the interactive sweep, the first entry is
the thread-count-1 run that the harness itself stores as the speedup
baseline, and its reported speedup and efficiency both equal 1. -/
theorem C6_thread_one_baseline_unity (method : Int) (times : Nat → ℚ)
    (h0 : times 0 ≠ 0) :
    (reportRows (sweepBaseline method times) (sweepResults method times)).head? =
      some (OutLine.tableRow 1 (times 0) 1 1) := by
  unfold reportRows sweepBaseline sweepResults
  by_cases hm : method = 3
  · rw [if_pos hm]
    simp only [List.map_cons, List.head?_cons]
    rw [div_self h0]
    norm_num
  · rw [if_neg hm]
    rw [show List.range maxThreads =
      0 :: [1, 2, 3, 4, 5, 6, 7, 8, 9, 10, 11, 12, 13, 14, 15] from rfl]
    simp only [List.map_cons, List.head?_cons]
    rw [div_self h0]
    norm_num

/-- witness for C6 with the sequential method and a unit elapsed time. -/
theorem C6_thread_one_baseline_unity_witness :
    ((1 : ℚ) ≠ 0) ∧
    (reportRows (sweepBaseline 3 (fun _ => 1)) (sweepResults 3 (fun _ => 1))).head? =
      some (OutLine.tableRow 1 (1 : ℚ) 1 1) :=
  ⟨one_ne_zero, C6_thread_one_baseline_unity 3 (fun _ => 1) one_ne_zero⟩

/-- counterexample for C3: on a table whose single entry has elapsed time 0,
the reporter of the source emits an ordinary numeric row computed by the
unconditional divisions, never an anomaly marker, and so differs from the
guarded reporter modelled from the spec exactly on that entry. -/
theorem C3_zero_time_counterexample :
    (∀ l ∈ reportRows 5 [(1, ⟨0, 1⟩)], OutLine.isSentinel l = false) ∧
    reportRows 5 [(1, ⟨0, 1⟩)] ≠ reportRowsSpec 5 [(1, ⟨0, 1⟩)] := by
  constructor
  · intro l hl
    rcases List.mem_cons.mp hl with rfl | h
    · rfl
    · cases h
  · simp [reportRows, reportRowsSpec]

/-- C3 amended: the reporter of the source has no zero-elapsed-time guard:
it never emits an anomaly marker, and an entry with elapsed time 0 is
rendered as an ordinary numeric row whose speedup and efficiency fields are
the raw divisions by zero (infinity or NaN under IEEE double arithmetic,
where the source computes with doubles). -/
theorem C3_reporter_has_no_zero_guard (base : ℚ) (th w : Int)
    (rest : List (Int × Result)) :
    (∀ l ∈ reportRows base rest, OutLine.isSentinel l = false) ∧
    reportRows base ((th, ⟨0, w⟩) :: rest) =
      OutLine.tableRow th 0 (base / 0) (base / 0 / (th : ℚ)) ::
        reportRows base rest := by
  constructor
  · intro l hl
    unfold reportRows at hl
    rcases List.mem_map.mp hl with ⟨res, _, rfl⟩
    rfl
  · rfl

/-- witness for C3 at baseline 5, a zero-time entry under thread key 1 and an
empty tail. -/
theorem C3_reporter_has_no_zero_guard_witness :
    (∀ l ∈ reportRows 5 [], OutLine.isSentinel l = false) ∧
    reportRows 5 [((1 : Int), ⟨0, 1⟩)] =
      OutLine.tableRow 1 0 (5 / 0) (5 / 0 / ((1 : Int) : ℚ)) ::
        reportRows 5 [] :=
  C3_reporter_has_no_zero_guard 5 1 1 []

/-- C4 (refuting theorem): the interactive input loop never exits, whatever
triples are entered and however many, because its body contains no break or
return; the harness therefore never proceeds past the prompt loop to the
thread-count sweep in interactive mode. -/
theorem C4_prompt_loop_never_exits (inputs : List (Nat × Nat × Int)) :
    promptLoop inputs = none := by
  induction inputs with
  | nil => rfl
  | cons t rest ih =>
    obtain ⟨N, NEIB, m⟩ := t
    simp only [promptLoop]
    split <;> exact ih
